import Mathlib

/-!
Verification of the FLOSS-core string-extraction engine against its code.

The Python source is shallowly embedded: Python `str` becomes `List Char`,
byte/file offsets become `Int` (Python integers), the injected external
collaborators (the `binary2strings` scanner, the xref finders, the PE
accessor) become explicit parameters, and each regular-expression
substitution of `floss/utils.py` is implemented as an executable function
with the exact Python `re` semantics (leftmost match, greedy quantifiers,
`.` not matching a newline, `$` matching at the end or before a final
newline, `re.match` anchored at position 0 only).
-/

namespace Floss

/-- Encodings of recovered strings, per `floss.results.StringEncoding`. -/
inductive StringEncoding where
  | ASCII
  | UTF8
  | UTF16LE
deriving DecidableEq, Repr

/-- `floss.results.StaticString`: recovered text, file offset, encoding.
Equality is field-wise, as for the Python dataclass. -/
structure StaticString where
  string : List Char
  offset : Int
  encoding : StringEncoding
deriving DecidableEq, Repr

/-- Kind tag of a raw `binary2strings` scanner result. -/
inductive RawKind where
  | UTF8
  | WIDE_STRING
  | OTHER
deriving DecidableEq, Repr

/-- One raw scanner result tuple `(text, kind, (start, stop), valid)`. -/
structure RawRes where
  text : List Char
  kind : RawKind
  start : Int
  stop : Int
  valid : Bool
deriving DecidableEq, Repr

/-- PE machine type, per the dispatch in `get_string_blob_strings`. -/
inductive Machine where
  | i386
  | amd64
  | other
deriving DecidableEq, Repr

/-- The read-only data section descriptor used by the blob engine. -/
structure SectionModel where
  virtual_address : Int
  pointer_to_raw_data : Int
  size_of_raw_data : Int
deriving DecidableEq, Repr

/-- The PE facts consumed by `get_string_blob_strings`; `rdata = none`
models `get_rdata_section` raising `ValueError`. -/
structure BlobPE where
  image_base : Int
  machine : Machine
  rdata : Option SectionModel

/-- The injected external collaborators of the blob engine: the result of
`b2s.extract_all_strings` on the rdata bytes, the `b2s.extract_string`
re-scan (indexed by the slice start `buffer[n:]`), the struct-candidate
addresses and the three xref finders. -/
structure BlobExt where
  scan : List RawRes
  rescan : Int → RawRes
  structAddrs : List Int
  leaXrefs : List Int
  pushXrefs : List Int
  movXrefs : List Int

/-- A post-loop emulator snapshot consumed by `extract_tightstrings`:
registers, the length of the captured stack bytes, and the scanner's
candidate strings for those bytes (the scanner itself is external). -/
structure CallCtx where
  pc : Int
  sp : Int
  init_sp : Int
  bufLen : Nat
  cands : List StaticString

/-- `floss.results.TightString`. -/
structure TightString where
  function_va : Int
  string : List Char
  encoding : StringEncoding
  program_counter : Int
  stack_pointer : Int
  initial_stack_pointer : Int
  offset : Int
  frame_offset : Int
deriving DecidableEq, Repr

/-! ### FP filter (`floss/utils.py`, `strip_string` and friends)

Each `re.sub`/`re.match` application is realised as an executable function
with Python `re` backtracking semantics for the concrete pattern.
-/

/-- Python regex `.`: any character except a newline. -/
def isDot (c : Char) : Bool := c ≠ '\n'

/-- The class `[ -~]`: printable ASCII. -/
def isPrintableAscii (c : Char) : Bool := ' ' ≤ c && c ≤ '~'

/-- The class `[0pP]`. -/
def inOptCls (c : Char) : Bool := c = '0' || c = 'p' || c = 'P'

/-- The class `[]^\[_\\V]` of `FP_FILTER_PREFIX_1`:
one of `]`, `^`, `[`, `_`, `\`, `V`. -/
def inPreCls (c : Char) : Bool :=
  c = ']' || c = '^' || c = '[' || c = '_' || c = '\\' || c = 'V'

/-- Match `[0pP]?[]^\[_\\V]A` at the head of `l` (greedy optional first):
returns the number of consumed characters. -/
def preCoreLen (l : List Char) : Option Nat :=
  match l with
  | c1 :: c2 :: c3 :: _ =>
    if inOptCls c1 && inPreCls c2 && (c3 = 'A') then some 3
    else if inPreCls c1 && (c2 = 'A') then some 2
    else none
  | [c1, c2] => if inPreCls c1 && (c2 = 'A') then some 2 else none
  | _ => none

/-- Length of the match of `^.{0,2}[0pP]?[]^\[_\\V]A` at position 0,
trying `.{0,2}` greedily (2, then 1, then 0 characters). -/
def preMatchLen (s : List Char) : Option Nat :=
  match s with
  | x :: y :: rest =>
    if isDot x && isDot y then
      match preCoreLen rest with
      | some k => some (k + 2)
      | none =>
        if isDot x then
          match preCoreLen (y :: rest) with
          | some k => some (k + 1)
          | none => preCoreLen s
        else preCoreLen s
    else if isDot x then
      match preCoreLen (y :: rest) with
      | some k => some (k + 1)
      | none => preCoreLen s
    else preCoreLen s
  | [x] => if isDot x then
      match preCoreLen [] with
      | some k => some (k + 1)
      | none => preCoreLen s
    else preCoreLen s
  | [] => preCoreLen s

/-- `re.sub(FP_FILTER_PREFIX_1, "", s)`: the pattern is anchored with `^`,
so at most the one leading match is removed. -/
def stripPre (s : List Char) : List Char :=
  match preMatchLen s with
  | some k => s.drop k
  | none => s

/-- Python `$` (no MULTILINE): position `p` is at the end of the string or
just before a terminating newline. -/
def atDollar (s : List Char) (p : Nat) : Bool :=
  p = s.length || (p + 1 = s.length && s.getD p ' ' = '\n')

/-- Try `[0pP]?[VWU][A@]$|Tp$` at position `p` of `s` in Python order
(left alternative first, greedy optional first); returns the match length. -/
def sufMatchAt (s : List Char) (p : Nat) : Option Nat :=
  let c0 := s.getD p ' '
  let c1 := s.getD (p + 1) ' '
  let c2 := s.getD (p + 2) ' '
  let inVWU := fun c => c = 'V' || c = 'W' || c = 'U'
  let inAAt := fun c => c = 'A' || c = '@'
  if p + 3 ≤ s.length && inOptCls c0 && inVWU c1 && inAAt c2 && atDollar s (p + 3) then
    some 3
  else if p + 2 ≤ s.length && inVWU c0 && inAAt c1 && atDollar s (p + 2) then
    some 2
  else if p + 2 ≤ s.length && c0 = 'T' && c1 = 'p' && atDollar s (p + 2) then
    some 2
  else none

/-- `re.sub(FP_FILTER_SUFFIX_1, "", s)`: the leftmost match (which must end
at `$`) is removed; no further match can follow it. -/
def stripSuf (s : List Char) : List Char :=
  match (List.range (s.length + 1)).findSome?
      (fun p => (sufMatchAt s p).map (fun k => (p, k))) with
  | some (p, k) => s.take p ++ s.drop (p + k)
  | none => s

/-- Length of the run of character `c` at the head of the list. -/
def runLen (c : Char) : List Char → Nat
  | [] => 0
  | x :: xs => if x = c then runLen c xs + 1 else 0

/-- One maximal run of `([ -~])\1{3,}` processing: `c` is the current run
character, `n` the run length accumulated so far; a finished printable run
of length at least 4 is dropped, any other run is emitted verbatim. -/
def rep1Go : List Char → Char → Nat → List Char
  | [], c, n => if isPrintableAscii c && decide (4 ≤ n) then [] else List.replicate n c
  | x :: xs, c, n =>
    if x = c then rep1Go xs c (n + 1)
    else
      (if isPrintableAscii c && decide (4 ≤ n) then [] else List.replicate n c) ++
        rep1Go xs x 1

/-- `re.sub(FP_FILTER_REP_CHARS_1, "", s)` for `([ -~])\1{3,}`: every
maximal run of one printable ASCII character of length at least 4 is
removed; scanning resumes after the removed run. -/
def stripRep1 (s : List Char) : List Char :=
  match s with
  | [] => []
  | c :: rest => rep1Go rest c 1

/-- Whether `g` is a literal prefix of `s`. -/
def litPre (g s : List Char) : Bool := decide (s.take g.length = g)

/-- Fuel-driven count of consecutive copies of the group `g` at the head
of `s`; fuel `s.length` suffices because each copy consumes at least one
character. -/
def countRepsF : Nat → List Char → List Char → Nat
  | 0, _, _ => 0
  | fuel + 1, g, s =>
    if !g.isEmpty && litPre g s then 1 + countRepsF fuel g (s.drop g.length)
    else 0

/-- Number of consecutive copies of the nonempty group `g` at the head of
`s`. -/
def countReps (g s : List Char) : Nat := countRepsF s.length g s

/-- The class `[^% ]`: any character (including newline) except `%` and
space. -/
def inRep2Cls (c : Char) : Bool := c ≠ '%' && c ≠ ' '

/-- Fuel-driven body of `re.sub(FP_FILTER_REP_CHARS_2, "", s)` for
`([^% ]{4})\1{4,}`: at the leftmost position where a 4-character group
(no `%`, no space) repeats at least 5 times consecutively, the maximal
repetition is removed and scanning resumes after it; fuel `s.length`
suffices because each step consumes at least one character. -/
def rep2Go : Nat → List Char → List Char
  | 0, s => s
  | _ + 1, [] => []
  | fuel + 1, c :: rest =>
    if ((c :: rest).take 4).length = 4 && ((c :: rest).take 4).all inRep2Cls &&
        decide (4 ≤ countReps ((c :: rest).take 4) ((c :: rest).drop 4)) then
      rep2Go fuel
        ((c :: rest).drop (4 * (countReps ((c :: rest).take 4) ((c :: rest).drop 4) + 1)))
    else c :: rep2Go fuel rest

/-- `re.sub(FP_FILTER_REP_CHARS_2, "", s)`. -/
def stripRep2 (s : List Char) : List Char := rep2Go s.length s

/-- Body of `^\[.*?]$` after the opening `[`: the list is `mid ++ [']']`
or `mid ++ [']', '\n']` with `mid` free of newlines (`.` excludes `\n`,
`$` may sit before a final newline). -/
def bracketBody : List Char → Bool
  | [] => false
  | [c] => c = ']'
  | [c, d] => (c = ']' && d = '\n') || (c ≠ '\n' && d = ']')
  | c :: rest => c ≠ '\n' && bracketBody rest

/-- `re.match(FP_FILTER_STRICT_INCLUDE, s)` for `^\[.*?]$|%[sd]`:
`re.match` anchors at position 0 only, so the `%[sd]` alternative fires
only when the string starts with `%s` or `%d`. -/
def strictInclude (s : List Char) : Bool :=
  (match s with
   | c :: rest => c = '[' && bracketBody rest
   | [] => false) ||
  (match s with
   | c0 :: c1 :: _ => c0 = '%' && (c1 = 's' || c1 = 'd')
   | _ => false)

/-- After the leading `O` of `^O.*A$`: if the rest is `mid ++ ['A']` or
`mid ++ ['A', '\n']` with `mid` newline-free, return what the substitution
leaves behind (nothing, or the final newline). -/
def oaTail : List Char → Option (List Char)
  | [] => none
  | [c] => if c = 'A' then some [] else none
  | [c, d] =>
    if c = 'A' && d = '\n' then some ['\n']
    else if c ≠ '\n' && d = 'A' then some []
    else none
  | c :: rest => if c ≠ '\n' then oaTail rest else none

/-- `re.sub(FP_FILTER_STRICT_KNOWN_FP, "", s)` for `^O.*A$`. -/
def stripKnownFP (s : List Char) : List Char :=
  match s with
  | 'O' :: rest =>
    match oaTail rest with
    | some rem => rem
    | none => s
  | _ => s

/-- The class `[A-Za-z0-9.]` kept by `FP_FILTER_STRICT_SPECIAL_CHARS`. -/
def isAlnumDot (c : Char) : Bool :=
  ('A' ≤ c && c ≤ 'Z') || ('a' ≤ c && c ≤ 'z') || ('0' ≤ c && c ≤ '9') || c = '.'

/-- `MAX_STRING_LENGTH_FILTER_STRICT` from `floss/utils.py`. -/
def MAX_STRING_LENGTH_FILTER_STRICT : Nat := 6

/-- The four strip-level substitutions of `strip_string`, in source
order. -/
def preStrip (s : List Char) : List Char :=
  stripRep2 (stripRep1 (stripSuf (stripPre s)))

/-- The two strict-level substitutions of `strip_string`, in source
order. -/
def strictStrip (s : List Char) : List Char :=
  (stripKnownFP s).filter isAlnumDot

/-- `floss.utils.strip_string`. -/
def strip_string (s : List Char) : List Char :=
  if (preStrip s).length ≤ MAX_STRING_LENGTH_FILTER_STRICT then
    if strictInclude (preStrip s) then preStrip s else strictStrip (preStrip s)
  else preStrip s

/-! ### `floss.utils.extract_strings` -/

/-- The blocklist `FP_STRINGS` of `floss/utils.py`. -/
def FP_STRINGS : List (List Char) :=
  [ "R6016".toList,
    "R6030".toList,
    "Program: ".toList,
    "Runtime Error!".toList,
    "bad locale name".toList,
    "ios_base::badbit set".toList,
    "ios_base::eofbit set".toList,
    "ios_base::failbit set".toList,
    "- CRT not initialized".toList,
    "program name unknown>".toList,
    "<program name unknown>".toList,
    "- floating point not loaded".toList,
    "Program: <program name unknown>".toList,
    "- not enough space for thread data".toList,
    " !\"#$%&'()*+,-./0123456789:;<=>?@ABCDEFGHIJKLMNOPQRSTUVWXYZ[\\]^_`abcdefghijklmnopqrstuvwxyz\x7b|\x7d~".toList ]

/-- The per-candidate body of the `extract_strings` loop: the raw scanned
candidate is skipped when it exceeds `MAX_STRING_LENGTH` (passed in as
`maxLen`, the constant living in `floss/const.py`), when its raw text is
in `FP_STRINGS`, when the stripped text is shorter than `min_length`, or
when the stripped text is in the exclusion set; otherwise the stripped
text is emitted at the candidate's offset and encoding. -/
def processCand (maxLen min_length : Nat) (exclude : List (List Char))
    (c : StaticString) : Option StaticString :=
  if maxLen < c.string.length then none
  else if c.string ∈ FP_STRINGS then none
  else if (strip_string c.string).length < min_length then none
  else if strip_string c.string ∈ exclude then none
  else some ⟨strip_string c.string, c.offset, c.encoding⟩

/-- `floss.utils.extract_strings`, with the black-box scanner's output on
the buffer supplied as `cands` and the buffer length as `bufLen`. -/
def extract_strings (bufLen : Nat) (cands : List StaticString)
    (maxLen min_length : Nat) (exclude : List (List Char)) : List StaticString :=
  if bufLen < min_length then []
  else cands.filterMap (processCand maxLen min_length exclude)

/-! ### Blob string engine (`floss/language/rust/extract.py`) -/

/-- The strict-inside test of `split_strings`:
`string.offset < address < string.offset + len(string.string)`. -/
def insideP (address : Int) (s : StaticString) : Bool :=
  s.offset < address && address < s.offset + s.string.length

/-- `floss.language.rust.extract.split_strings`: the loop finds the first
held string strictly containing `address`, appends the two halves that
meet `min_length`, and removes the first list element equal to the found
string; without a match the list is unchanged. -/
def split_strings (static_strings : List StaticString) (address : Int)
    (min_length : Nat) : List StaticString :=
  match static_strings.find? (insideP address) with
  | none => static_strings
  | some s =>
    let k := (address - s.offset).toNat
    let rust_string : StaticString := ⟨s.string.take k, s.offset, .UTF8⟩
    let rest : StaticString := ⟨s.string.drop k, address, .UTF8⟩
    ((static_strings ++
        (if min_length ≤ rust_string.string.length then [rust_string] else []) ++
        (if min_length ≤ rest.string.length then [rest] else [])).erase s)

/-- Low byte of the first UTF-16LE code unit of a character (`sd[0]` for
`sd = s.encode("utf-16le")` when the character opens `s`). -/
def utf16leFirstByte (c : Char) : Nat :=
  if c.val.toNat < 0x10000 then c.val.toNat % 256
  else (0xD800 + (c.val.toNat - 0x10000) / 0x400) % 256

/-- Python substring test `needle in hay`: `needle` occurs contiguously
in `hay` (always true for an empty `needle`). -/
def isSubstr (needle : List Char) : List Char → Bool
  | [] => needle.isEmpty
  | h :: t => litPre needle (h :: t) || isSubstr needle t

/-- The fixup tuple built in the `sd[0] == 0` branch from the re-scan of
`buffer[start + 1:]`: offsets shift by `start + 1`. -/
def mkFixup (rescan : Int → RawRes) (start : Int) : RawRes :=
  let n := rescan (start + 1)
  ⟨n.text, n.kind, n.start + start + 1, n.stop + start + 1, n.valid⟩

/-- Loop of `fix_b2s_wide_strings` over strings with the pending
`last_fixup` threaded; `none` models the `IndexError` on `sd[0]` raised
for a wide result whose text is empty. -/
def fixGo (min_length : Nat) (rescan : Int → RawRes) :
    List RawRes → Option RawRes → List RawRes → Option (List RawRes)
  | [], _, acc => some acc.reverse
  | r :: rest, last_fixup, acc =>
    if r.kind = .WIDE_STRING then
      match r.text with
      | [] => none
      | c :: _ =>
        if utf16leFirstByte c = 0 then
          let fx := mkFixup rescan r.start
          fixGo min_length rescan rest
            (if fx.text.length < min_length then none else some fx) acc
        else fixGo min_length rescan rest last_fixup acc
    else
      match last_fixup with
      | some fx =>
        if isSubstr r.text fx.text then fixGo min_length rescan rest none (fx :: acc)
        else fixGo min_length rescan rest none (r :: acc)
      | none => fixGo min_length rescan rest none (r :: acc)

/-- `floss.language.rust.extract.fix_b2s_wide_strings`, with the external
`b2s.extract_string` re-scan injected as `rescan`. -/
def fix_b2s_wide_strings (strings : List RawRes) (min_length : Nat)
    (rescan : Int → RawRes) : Option (List RawRes) :=
  fixGo min_length rescan strings none []

/-- `floss.language.rust.extract.filter_and_transform_utf8_strings`: keep
UTF-8 results, drop embedded newlines, rebase the offset by
`start_rdata`. -/
def filter_and_transform_utf8_strings (strings : List RawRes)
    (start_rdata : Int) : List StaticString :=
  strings.filterMap fun r =>
    if r.kind = .UTF8 then
      some ⟨r.text.filter (· ≠ '\n'), r.start + start_rdata, .UTF8⟩
    else none

/-- The architecture dispatch of `get_string_blob_strings`: struct
candidate addresses chained with the machine-specific xref finders, or
`none` for an unsupported machine. -/
def machineXrefs (pe : BlobPE) (ext : BlobExt) : Option (List Int) :=
  match pe.machine with
  | .i386 => some (ext.structAddrs ++ ext.leaXrefs ++ ext.pushXrefs ++ ext.movXrefs)
  | .amd64 => some (ext.structAddrs ++ ext.leaXrefs)
  | .other => none

/-- `floss.language.rust.extract.get_string_blob_strings`: resolve rdata
(else return empty), scan and repair wide strings, project UTF-8 strings,
then split at every in-section xref file offset; an unsupported machine
returns empty after the scan. `none` models an uncaught exception. -/
def get_string_blob_strings (pe : BlobPE) (ext : BlobExt) (min_length : Nat) :
    Option (List StaticString) :=
  match pe.rdata with
  | none => some []
  | some sec =>
    let start_rdata := sec.pointer_to_raw_data
    let end_rdata := start_rdata + sec.size_of_raw_data
    match fix_b2s_wide_strings ext.scan min_length ext.rescan with
    | none => none
    | some fixed =>
      let static_strings := filter_and_transform_utf8_strings fixed start_rdata
      match machineXrefs pe ext with
      | none => some []
      | some xrefs =>
        some (xrefs.foldl
          (fun acc addr =>
            let address := addr - pe.image_base - sec.virtual_address +
              sec.pointer_to_raw_data
            if start_rdata ≤ address ∧ address < end_rdata then
              split_strings acc address min_length
            else acc)
          static_strings)

/-! ### Tightstring engine (`floss/tightstrings.py`) -/

/-- The inner generator loop of `extract_tightstrings` for one stack
buffer: `extract_strings` yields lazily and the caller adds each emitted
text to the (shared) exclusion set before the next candidate is tested,
so the set is threaded through the candidates. -/
def tightGo (maxLen min_length : Nat) :
    List StaticString → List (List Char) → List StaticString × List (List Char)
  | [], exclude => ([], exclude)
  | c :: cs, exclude =>
    match processCand maxLen min_length exclude c with
    | none => tightGo maxLen min_length cs exclude
    | some s =>
      (s :: (tightGo maxLen min_length cs (s.string :: exclude)).1,
        (tightGo maxLen min_length cs (s.string :: exclude)).2)

/-- Build the `TightString` yielded for a surviving string `s` of context
`ctx`: `frame_offset = (ctx.init_sp - ctx.sp) - s.offset - pointer_size`. -/
def mkTightString (fva pointer_size : Int) (ctx : CallCtx) (s : StaticString) :
    TightString :=
  ⟨fva, s.string, s.encoding, ctx.pc, ctx.sp, ctx.init_sp, s.offset,
    (ctx.init_sp - ctx.sp) - s.offset - pointer_size⟩

/-- Per-context extraction: the `len(buffer) < min_length` guard of
`extract_strings`, then the threaded candidate loop. -/
def tightCtx (maxLen min_length : Nat) (fva pointer_size : Int) (ctx : CallCtx)
    (exclude : List (List Char)) : List TightString × List (List Char) :=
  if ctx.bufLen < min_length then ([], exclude)
  else
    ((tightGo maxLen min_length ctx.cands exclude).1.map
        (mkTightString fva pointer_size ctx),
      (tightGo maxLen min_length ctx.cands exclude).2)

/-- The per-function body of `extract_tightstrings`: contexts are
processed in order with the single exclusion set, initialized to the
pre-loop snapshot strings `pre_ctx_strings`. -/
def tightCtxs (maxLen min_length : Nat) (fva pointer_size : Int) :
    List CallCtx → List (List Char) → List TightString × List (List Char)
  | [], exclude => ([], exclude)
  | ctx :: rest, exclude =>
    ((tightCtx maxLen min_length fva pointer_size ctx exclude).1 ++
        (tightCtxs maxLen min_length fva pointer_size rest
          (tightCtx maxLen min_length fva pointer_size ctx exclude).2).1,
      (tightCtxs maxLen min_length fva pointer_size rest
        (tightCtx maxLen min_length fva pointer_size ctx exclude).2).2)

/-- All `TightString`s yielded for one function by
`floss.tightstrings.extract_tightstrings`. -/
def extract_tightstrings (maxLen min_length : Nat) (fva pointer_size : Int)
    (ctxs : List CallCtx) (pre_ctx_strings : List (List Char)) : List TightString :=
  (tightCtxs maxLen min_length fva pointer_size ctxs pre_ctx_strings).1

/-! ### Helper lemmas: every strip stage only removes characters -/

theorem stripPre_sublist (s : List Char) : (stripPre s).Sublist s := by
  unfold stripPre
  cases preMatchLen s with
  | none => exact List.Sublist.refl s
  | some k => exact List.drop_sublist k s

theorem stripSuf_sublist (s : List Char) : (stripSuf s).Sublist s := by
  unfold stripSuf
  cases h : (List.range (s.length + 1)).findSome?
      (fun p => (sufMatchAt s p).map (fun k => (p, k))) with
  | none => exact List.Sublist.refl s
  | some pk =>
    obtain ⟨p, k⟩ := pk
    show (s.take p ++ s.drop (p + k)).Sublist s
    have h1 : (s.drop (p + k)).Sublist (s.drop p) := by
      rw [← List.drop_drop]
      exact List.drop_sublist _ _
    have h2 := List.Sublist.append_left h1 (s.take p)
    rw [List.take_append_drop p s] at h2
    exact h2

theorem rep1Go_sublist (l : List Char) : ∀ c n,
    (rep1Go l c n).Sublist (List.replicate n c ++ l) := by
  induction l with
  | nil =>
    intro c n
    unfold rep1Go
    split
    · exact List.nil_sublist _
    · simp
  | cons x xs ih =>
    intro c n
    unfold rep1Go
    by_cases hx : x = c
    · subst hx
      rw [if_pos rfl]
      have h := ih x (n + 1)
      have heq : List.replicate (n + 1) x ++ xs = List.replicate n x ++ (x :: xs) := by
        rw [List.replicate_succ' n x]
        simp
      rw [heq] at h
      exact h
    · rw [if_neg hx]
      refine List.Sublist.append ?_ ?_
      · split
        · exact List.nil_sublist _
        · exact List.Sublist.refl _
      · have h1 := ih x 1
        simpa using h1

theorem stripRep1_sublist (s : List Char) : (stripRep1 s).Sublist s := by
  cases s with
  | nil => exact List.Sublist.refl []
  | cons c rest =>
    have h := rep1Go_sublist rest c 1
    simpa [stripRep1] using h

theorem rep2Go_sublist (fuel : Nat) : ∀ s : List Char, (rep2Go fuel s).Sublist s := by
  induction fuel with
  | zero => intro s; exact List.Sublist.refl s
  | succ f ih =>
    intro s
    cases s with
    | nil => exact List.Sublist.refl []
    | cons c rest =>
      show (rep2Go (f + 1) (c :: rest)).Sublist (c :: rest)
      unfold rep2Go
      split
      · exact (ih _).trans (List.drop_sublist _ _)
      · exact (ih rest).cons₂ c

theorem stripRep2_sublist (s : List Char) : (stripRep2 s).Sublist s :=
  rep2Go_sublist s.length s

theorem oaTail_sublist : ∀ l r : List Char, oaTail l = some r → r.Sublist l := by
  intro l
  induction l with
  | nil => intro r h; simp [oaTail] at h
  | cons c rest ih =>
    intro r h
    match rest, h with
    | [], h =>
      simp only [oaTail] at h
      split at h
      · cases h; exact List.nil_sublist _
      · cases h
    | [d], h =>
      simp only [oaTail] at h
      split at h
      · cases h; simp_all
      · split at h
        · cases h; exact List.nil_sublist _
        · cases h
    | d :: e :: rest', h =>
      simp only [oaTail] at h
      split at h
      · exact (ih r h).cons c
      · cases h

theorem stripKnownFP_sublist (s : List Char) : (stripKnownFP s).Sublist s := by
  unfold stripKnownFP
  split
  · split
    · next rest rem hoa => exact (oaTail_sublist _ _ hoa).cons 'O'
    · exact List.Sublist.refl _
  · exact List.Sublist.refl _

theorem strictStrip_sublist (s : List Char) : (strictStrip s).Sublist s :=
  (List.filter_sublist _).trans (stripKnownFP_sublist s)

/-- Every `strip_string` result is a sublist of its input: the filter only
removes characters. -/
theorem strip_string_sublist (s : List Char) : (strip_string s).Sublist s := by
  have hpre : (preStrip s).Sublist s :=
    ((stripRep2_sublist _).trans ((stripRep1_sublist _).trans
      ((stripSuf_sublist _).trans (stripPre_sublist s))))
  unfold strip_string
  split
  · split
    · exact hpre
    · exact (strictStrip_sublist _).trans hpre
  · exact hpre

/-! ### Claim theorems -/

/-- C2 counterexample: splitting `StaticString("abcdefgh", 0x100, UTF8)`
at xref file offset `0x103` with `min_length = 4` does NOT yield
`StaticString("efgh", 0x103, UTF8)`: the split point is `0x103 - 0x100 =
3`, so the suffix half is `"defgh"`, not `"efgh"`. -/
theorem split_strings_scenario3_cex :
    split_strings [⟨"abcdefgh".toList, 0x100, .UTF8⟩] 0x103 4 ≠
      [⟨"efgh".toList, 0x103, .UTF8⟩] := by decide

/-- C2 (amended): splitting the single `StaticString("abcdefgh", 0x100,
UTF8)` at xref file offset `0x103` with `min_length = 4` yields exactly
one string, `StaticString("defgh", 0x103, UTF8)`; the 3-character first
half `"abc"` is dropped for falling below `min_length`. -/
theorem split_strings_drops_short_half :
    split_strings [⟨"abcdefgh".toList, 0x100, .UTF8⟩] 0x103 4 =
      [⟨"defgh".toList, 0x103, .UTF8⟩] := by decide

/-- C1: when `split_strings` finds a held string `s` whose span strictly
contains the xref file offset (the first such string in list order), the
result is the input list with `s` removed and, appended at the end, the
prefix half at `s.offset` and the suffix half at the xref offset, each
kept exactly when its length reaches `min_length`; the two halves
concatenate back to `s.string`. -/
theorem split_strings_splits_at_xref (l : List StaticString) (address : Int)
    (min_length : Nat) (s : StaticString)
    (h : l.find? (insideP address) = some s) :
    s ∈ l ∧ insideP address s = true ∧
    s.string.take ((address - s.offset).toNat) ++
      s.string.drop ((address - s.offset).toNat) = s.string ∧
    split_strings l address min_length =
      l.erase s ++
        ((if min_length ≤ (s.string.take ((address - s.offset).toNat)).length then
            [(⟨s.string.take ((address - s.offset).toNat), s.offset, .UTF8⟩ : StaticString)]
          else []) ++
         (if min_length ≤ (s.string.drop ((address - s.offset).toNat)).length then
            [(⟨s.string.drop ((address - s.offset).toNat), address, .UTF8⟩ : StaticString)]
          else [])) := by
  have hmem : s ∈ l := List.mem_of_find?_eq_some h
  refine ⟨hmem, List.find?_some h, List.take_append_drop _ _, ?_⟩
  unfold split_strings
  rw [h]
  simp only
  rw [List.append_assoc]
  exact List.erase_append_left _ hmem

/-- Witness for C1 at the spec's own scenario: `"abcdefgh"` at `0x100`
split at `0x104` with `min_length = 4` gives `"abcd"` at `0x100` and
`"efgh"` at `0x104`. -/
theorem split_strings_splits_at_xref_witness :
    split_strings [⟨"abcdefgh".toList, 0x100, .UTF8⟩] 0x104 4 =
      [⟨"abcd".toList, 0x100, .UTF8⟩, ⟨"efgh".toList, 0x104, .UTF8⟩] := by
  have h := split_strings_splits_at_xref [⟨"abcdefgh".toList, 0x100, .UTF8⟩]
    0x104 4 ⟨"abcdefgh".toList, 0x100, .UTF8⟩ (by decide)
  exact h.2.2.2.trans (by decide)

/-- C4 counterexample: `strip_string` is not idempotent. Stripping
`"]Axx]A12345678"` removes the anchored prefix `"]A"`, which exposes the
new prefix `"xx]A"`; a second application removes it too. -/
theorem strip_string_not_idempotent :
    strip_string (strip_string "]Axx]A12345678".toList) ≠
      strip_string "]Axx]A12345678".toList := by decide

/-- C4 (amended): while `strip_string` is not idempotent, a second
application can only remove further characters: `strip_string
(strip_string s)` is always a sublist of `strip_string s`. -/
theorem strip_string_reapply_sublist (s : List Char) :
    (strip_string (strip_string s)).Sublist (strip_string s) :=
  strip_string_sublist (strip_string s)

/-- The dodge pattern of the strict level, characterized: the string is a
`[...]` form, or STARTS with `%s` or `%d` (`re.match` anchors at position
0, so a `%s`/`%d` elsewhere does not count). -/
theorem strictInclude_iff (t : List Char) :
    strictInclude t = true ↔
      (∃ r, t = '[' :: r ∧ bracketBody r = true) ∨
      t.take 2 = ['%', 's'] ∨ t.take 2 = ['%', 'd'] := by
  rcases t with _ | ⟨c, t⟩
  · simp [strictInclude]
  · rcases t with _ | ⟨d, t⟩
    · simp only [strictInclude, Bool.or_eq_true, Bool.and_eq_true, decide_eq_true_eq]
      constructor
      · rintro (⟨hc, hb⟩ | h)
        · exact Or.inl ⟨[], by simp [hc], hb⟩
        · cases h
      · rintro (⟨r, hr, hb⟩ | h | h)
        · obtain ⟨rfl, rfl⟩ := List.cons.injEq .. ▸ And.intro (List.head_eq_of_cons_eq hr) (List.tail_eq_of_cons_eq hr)
          exact Or.inl ⟨rfl, hb⟩
        · simp [List.take] at h
        · simp [List.take] at h
    · simp only [strictInclude, Bool.or_eq_true, Bool.and_eq_true, decide_eq_true_eq,
        Bool.or_eq_true]
      constructor
      · rintro (⟨hc, hb⟩ | ⟨hc, hd⟩)
        · exact Or.inl ⟨d :: t, by rw [hc], hb⟩
        · rcases hd with hd | hd
          · exact Or.inr (Or.inl (by simp [hc, hd]))
          · exact Or.inr (Or.inr (by simp [hc, hd]))
      · rintro (⟨r, hr, hb⟩ | h | h)
        · have hc : c = '[' := List.head_eq_of_cons_eq hr
          have ht : d :: t = r := List.tail_eq_of_cons_eq hr
          exact Or.inl ⟨hc, ht ▸ hb⟩
        · simp only [List.take, List.cons.injEq] at h
          exact Or.inr ⟨h.1, Or.inl h.2.1⟩
        · simp only [List.take, List.cons.injEq] at h
          exact Or.inr ⟨h.1, Or.inr h.2.1⟩

/-- C5 counterexample: `"ab%d"` survives the strip level unchanged, has
length at most 6 and contains `%d` — yet `strip_string` removes its `%`
(the code's `re.match` only exempts strings STARTING with `%s`/`%d`). -/
theorem strip_string_pct_mid_cex :
    preStrip "ab%d".toList = "ab%d".toList ∧
    ("ab%d".toList).length ≤ 6 ∧
    isSubstr "%d".toList "ab%d".toList = true ∧
    strip_string "ab%d".toList = "abd".toList := by decide

/-- C5 (amended): the strict level is applied exactly when the post-strip
string has length at most 6 and does not match `^\[.*?]$` nor START with
`%s`/`%d`; when it matches the exemption pattern, or exceeds length 6,
the post-strip string is returned untouched. -/
theorem strip_string_strict_condition (s : List Char) :
    (strictInclude (preStrip s) = true → strip_string s = preStrip s) ∧
    (MAX_STRING_LENGTH_FILTER_STRICT < (preStrip s).length →
      strip_string s = preStrip s) ∧
    ((preStrip s).length ≤ MAX_STRING_LENGTH_FILTER_STRICT →
      strictInclude (preStrip s) = false → strip_string s = strictStrip (preStrip s)) ∧
    (strictInclude (preStrip s) = true ↔
      (∃ r, preStrip s = '[' :: r ∧ bracketBody r = true) ∨
      (preStrip s).take 2 = ['%', 's'] ∨ (preStrip s).take 2 = ['%', 'd']) := by
  refine ⟨?_, ?_, ?_, strictInclude_iff (preStrip s)⟩
  · intro h
    unfold strip_string
    rw [if_pos h]
    split <;> rfl
  · intro h
    unfold strip_string
    split
    · next hc => omega
    · rfl
  · intro h1 h2
    unfold strip_string
    rw [if_pos h1]
    simp [h2]

/-- Witness for C5 (amended): `"%s##"` starts with `%s`, so the strict
level is skipped and the `#` characters survive. -/
theorem strip_string_strict_condition_witness :
    strip_string "%s##".toList = preStrip "%s##".toList :=
  (strip_string_strict_condition "%s##".toList).1 (by decide)

/-- C6 counterexample: the blocklist is consulted on the RAW scanned text
before stripping: raw `"R6016!"` is not in `FP_STRINGS`, strips to
`"R6016"` which IS in `FP_STRINGS`, and is nevertheless emitted. -/
theorem blocklist_checked_before_strip_cex :
    "R6016".toList ∈ FP_STRINGS ∧
    strip_string "R6016!".toList = "R6016".toList ∧
    extract_strings 6 [⟨"R6016!".toList, 0, .ASCII⟩] 2048 4 [] =
      [⟨"R6016".toList, 0, .ASCII⟩] := by decide

/-- C6 (amended): a scanned candidate is rejected by `extract_strings`
whenever its RAW text is in the `FP_STRINGS` blocklist or its post-filter
length is below `min_length`; in particular `"Runtime Error!"` (a
blocklist member) is rejected. -/
theorem extract_strings_rejects (maxLen min_length : Nat)
    (exclude : List (List Char)) (c : StaticString) (bufLen : Nat)
    (h : c.string ∈ FP_STRINGS ∨ (strip_string c.string).length < min_length) :
    processCand maxLen min_length exclude c = none ∧
    extract_strings bufLen [c] maxLen min_length exclude = [] := by
  have hp : processCand maxLen min_length exclude c = none := by
    unfold processCand
    split
    · rfl
    · rcases h with h | h
      · rw [if_pos h]
      · by_cases hfp : c.string ∈ FP_STRINGS
        · rw [if_pos hfp]
        · rw [if_neg hfp, if_pos h]
  refine ⟨hp, ?_⟩
  unfold extract_strings
  split
  · rfl
  · simp [List.filterMap_cons, hp]

/-- Witness for C6 (amended): the spec's own scenario, candidate
`"Runtime Error!"` with `min_length = 4`, is rejected. -/
theorem extract_strings_rejects_witness :
    processCand 2048 4 [] ⟨"Runtime Error!".toList, 0, .ASCII⟩ = none ∧
    extract_strings 14 [⟨"Runtime Error!".toList, 0, .ASCII⟩] 2048 4 [] = [] :=
  extract_strings_rejects 2048 4 [] ⟨"Runtime Error!".toList, 0, .ASCII⟩ 14
    (Or.inl (by decide))

/-- C9: every string emitted by `extract_strings` derives from a scanned
candidate whose RAW text length is at most `MAX_STRING_LENGTH` (the
`maxLen` parameter): over-long candidates are skipped before any
filtering, a cap the spec does not state. -/
theorem extract_strings_caps_raw_length (bufLen : Nat)
    (cands : List StaticString) (maxLen min_length : Nat)
    (exclude : List (List Char)) (s : StaticString)
    (hs : s ∈ extract_strings bufLen cands maxLen min_length exclude) :
    ∃ c ∈ cands, c.string.length ≤ maxLen ∧ s.string = strip_string c.string ∧
      s.offset = c.offset ∧ s.encoding = c.encoding := by
  unfold extract_strings at hs
  split at hs
  · simp at hs
  · obtain ⟨c, hc, hpc⟩ := List.mem_filterMap.mp hs
    refine ⟨c, hc, ?_⟩
    unfold processCand at hpc
    split at hpc
    · exact absurd hpc (by simp)
    · next hlen =>
      split at hpc
      · exact absurd hpc (by simp)
      · split at hpc
        · exact absurd hpc (by simp)
        · split at hpc
          · exact absurd hpc (by simp)
          · injection hpc with h
            subst h
            exact ⟨by omega, rfl, rfl, rfl⟩

/-- Witness for C9 at a concrete scan. -/
theorem extract_strings_caps_raw_length_witness :
    ∃ c ∈ [(⟨"hello".toList, 0, .ASCII⟩ : StaticString)],
      c.string.length ≤ 2048 ∧
      (⟨"hello".toList, 0, .ASCII⟩ : StaticString).string = strip_string c.string ∧
      (⟨"hello".toList, 0, .ASCII⟩ : StaticString).offset = c.offset ∧
      (⟨"hello".toList, 0, .ASCII⟩ : StaticString).encoding = c.encoding :=
  extract_strings_caps_raw_length 5 [⟨"hello".toList, 0, .ASCII⟩] 2048 4 []
    ⟨"hello".toList, 0, .ASCII⟩ (by decide)

/-- The scanner results of the spec's wide-string repair scenario. -/
def scenarioWideInput : List RawRes :=
  [⟨"foo".toList, .WIDE_STRING, 0, 6, true⟩, ⟨"oo".toList, .UTF8, 1, 3, true⟩]

/-- C7 counterexample: byte 0 of the UTF-16LE re-encoding of `"foo"` is
`0x66`, not zero, so no fixup is created and the repair pass emits the
following UTF-8 result unchanged — not the claimed
`("foo", UTF8, (1,4), true)`. -/
theorem fix_wide_scenario_cex :
    utf16leFirstByte 'f' ≠ 0 ∧
    fix_b2s_wide_strings scenarioWideInput 2 (fun _ => ⟨[], .UTF8, 0, 0, true⟩) =
      some [⟨"oo".toList, .UTF8, 1, 3, true⟩] ∧
    [(⟨"oo".toList, .UTF8, 1, 3, true⟩ : RawRes)] ≠
      [⟨"foo".toList, .UTF8, 1, 4, true⟩] := by decide

/-- C7 (amended): on the scenario input with `min_length = 2`, whatever
the external re-scan returns, the repair pass outputs exactly
`[("oo", UTF8, (1,3), true)]`: the wide result's re-encoding starts with
the nonzero byte `0x66`, so no fixup is pending and the wide tuple is
dropped. -/
theorem fix_wide_scenario (rescan : Int → RawRes) :
    fix_b2s_wide_strings scenarioWideInput 2 rescan =
      some [⟨"oo".toList, .UTF8, 1, 3, true⟩] := rfl

/-- C10 counterexample: a pending fixup is re-scanned by
`b2s.extract_string`, whose result may itself be of kind `WIDE_STRING`;
the fixup is emitted without any kind check, so a `WIDE_STRING` tuple CAN
appear in the output. -/
theorem fix_wide_emits_wide_fixup_cex :
    fix_b2s_wide_strings
        [⟨['Ā'], .WIDE_STRING, 0, 4, true⟩, ⟨['a'], .UTF8, 1, 2, true⟩] 1
        (fun _ => ⟨['a', 'b'], .WIDE_STRING, 0, 2, true⟩) =
      some [⟨['a', 'b'], .WIDE_STRING, 1, 3, true⟩] ∧
    (⟨['a', 'b'], .WIDE_STRING, 1, 3, true⟩ : RawRes).kind = .WIDE_STRING := by
  decide

theorem fixGo_no_wide (min_length : Nat) (rescan : Int → RawRes)
    (hres : ∀ n, (rescan n).kind ≠ .WIDE_STRING) :
    ∀ (l : List RawRes) (lf : Option RawRes) (acc out : List RawRes),
      (∀ x ∈ acc, x.kind ≠ .WIDE_STRING) →
      (∀ fx, lf = some fx → fx.kind ≠ .WIDE_STRING) →
      fixGo min_length rescan l lf acc = some out →
      ∀ r ∈ out, r.kind ≠ .WIDE_STRING := by
  intro l
  induction l with
  | nil =>
    intro lf acc out hacc _ h r hr
    simp only [fixGo] at h
    injection h with h
    subst h
    exact hacc r (by simpa using hr)
  | cons x rest ih =>
    intro lf acc out hacc hlf h r hr
    simp only [fixGo] at h
    split at h
    · next hk =>
      cases hx : x.text with
      | nil => rw [hx] at h; cases h
      | cons c t =>
        rw [hx] at h
        simp only at h
        split at h
        · refine ih _ _ _ hacc ?_ h r hr
          intro fx hfx
          split at hfx
          · cases hfx
          · injection hfx with hfx
            subst hfx
            exact hres _
        · exact ih _ _ _ hacc hlf h r hr
    · next hk =>
      cases hlf' : lf with
      | some fx =>
        rw [hlf'] at h
        simp only at h
        split at h
        · refine ih _ _ _ ?_ (by intro fx' hfx'; cases hfx') h r hr
          intro y hy
          rcases List.mem_cons.mp hy with rfl | hy
          · exact hlf _ hlf'
          · exact hacc y hy
        · refine ih _ _ _ ?_ (by intro fx' hfx'; cases hfx') h r hr
          intro y hy
          rcases List.mem_cons.mp hy with rfl | hy
          · exact hk
          · exact hacc y hy
      | none =>
        rw [hlf'] at h
        simp only at h
        refine ih _ _ _ ?_ (by intro fx' hfx'; cases hfx') h r hr
        intro y hy
        rcases List.mem_cons.mp hy with rfl | hy
        · exact hk
        · exact hacc y hy

/-- C10 (amended): provided every external re-scan result is non-wide, no
`WIDE_STRING` tuple appears in the repair pass output: each wide input is
either replaced by a re-scanned fixup attached to a later non-wide result
or dropped entirely (including wide entries with a nonzero re-encoded
first byte and a fixup left pending at the end of the list). -/
theorem fix_wide_no_wide_output (strings : List RawRes) (min_length : Nat)
    (rescan : Int → RawRes) (out : List RawRes)
    (hres : ∀ n, (rescan n).kind ≠ .WIDE_STRING)
    (hout : fix_b2s_wide_strings strings min_length rescan = some out) :
    ∀ r ∈ out, r.kind ≠ .WIDE_STRING :=
  fixGo_no_wide min_length rescan hres strings none [] out
    (by intro x hx; cases hx) (by intro fx hfx; cases hfx) hout

/-- Witness for C10 (amended) at a concrete run. -/
theorem fix_wide_no_wide_output_witness :
    (⟨['a'], .UTF8, 0, 1, true⟩ : RawRes).kind ≠ .WIDE_STRING :=
  fix_wide_no_wide_output [⟨['a'], .UTF8, 0, 1, true⟩] 1
    (fun _ => ⟨['z'], .UTF8, 0, 1, true⟩) [⟨['a'], .UTF8, 0, 1, true⟩]
    (fun _ => by simp) (by decide) _ (by decide)

/-- A successful `processCand` result: the emitted text is the stripped
candidate text, it is not in the exclusion set, and it meets
`min_length`. -/
theorem processCand_some (maxLen min_length : Nat) (exclude : List (List Char))
    (c s : StaticString) (h : processCand maxLen min_length exclude c = some s) :
    s.string = strip_string c.string ∧ s.string ∉ exclude ∧
      min_length ≤ s.string.length := by
  unfold processCand at h
  split at h
  · cases h
  · split at h
    · cases h
    · split at h
      · cases h
      · split at h
        · cases h
        · next hlen hex =>
          injection h with h
          subst h
          refine ⟨rfl, hex, ?_⟩
          show min_length ≤ (strip_string c.string).length
          omega

/-- Invariant of the threaded candidate loop: the emitted strings are
fresh relative to the incoming exclusion set, pairwise distinct, and all
recorded in the outgoing exclusion set, which extends the incoming one. -/
theorem tightGo_inv (maxLen min_length : Nat) :
    ∀ (cs : List StaticString) (ex : List (List Char)),
      (∀ s ∈ (tightGo maxLen min_length cs ex).1, s.string ∉ ex) ∧
      ((tightGo maxLen min_length cs ex).1.map (fun s => s.string)).Nodup ∧
      (∀ x ∈ ex, x ∈ (tightGo maxLen min_length cs ex).2) ∧
      (∀ s ∈ (tightGo maxLen min_length cs ex).1,
        s.string ∈ (tightGo maxLen min_length cs ex).2) := by
  intro cs
  induction cs with
  | nil =>
    intro ex
    refine ⟨?_, ?_, ?_, ?_⟩ <;> simp [tightGo]
  | cons c cs ih =>
    intro ex
    cases hpc : processCand maxLen min_length ex c with
    | none =>
      have hgo : tightGo maxLen min_length (c :: cs) ex =
          tightGo maxLen min_length cs ex := by
        simp only [tightGo]
        rw [hpc]
      rw [hgo]
      exact ih ex
    | some s =>
      obtain ⟨hstr, hnotin, _⟩ := processCand_some maxLen min_length ex c s hpc
      have hgo : tightGo maxLen min_length (c :: cs) ex =
          (s :: (tightGo maxLen min_length cs (s.string :: ex)).1,
            (tightGo maxLen min_length cs (s.string :: ex)).2) := by
        simp only [tightGo]
        rw [hpc]
      obtain ⟨ih1, ih2, ih3, ih4⟩ := ih (s.string :: ex)
      rw [hgo]
      refine ⟨?_, ?_, ?_, ?_⟩
      · intro t ht
        rcases List.mem_cons.mp ht with rfl | ht
        · exact hnotin
        · exact fun hmem => ih1 t ht (List.mem_cons_of_mem _ hmem)
      · refine List.Nodup.cons ?_ ih2
        intro hmem
        obtain ⟨t, ht, hts⟩ := List.mem_map.mp hmem
        exact ih1 t ht (by rw [hts]; exact List.mem_cons_self _ _)
      · intro x hx
        exact ih3 x (List.mem_cons_of_mem _ hx)
      · intro t ht
        rcases List.mem_cons.mp ht with rfl | ht
        · exact ih3 t.string (List.mem_cons_self _ _)
        · exact ih4 t ht

/-- The `tightGo` invariant lifted to one call context. -/
theorem tightCtx_inv (maxLen min_length : Nat) (fva pointer_size : Int)
    (ctx : CallCtx) (ex : List (List Char)) :
    (∀ t ∈ (tightCtx maxLen min_length fva pointer_size ctx ex).1,
      t.string ∉ ex) ∧
    ((tightCtx maxLen min_length fva pointer_size ctx ex).1.map
      (fun t => t.string)).Nodup ∧
    (∀ x ∈ ex, x ∈ (tightCtx maxLen min_length fva pointer_size ctx ex).2) ∧
    (∀ t ∈ (tightCtx maxLen min_length fva pointer_size ctx ex).1,
      t.string ∈ (tightCtx maxLen min_length fva pointer_size ctx ex).2) := by
  unfold tightCtx
  split
  · refine ⟨?_, ?_, ?_, ?_⟩ <;> simp
  · obtain ⟨h1, h2, h3, h4⟩ := tightGo_inv maxLen min_length ctx.cands ex
    have hmapstr : ((tightGo maxLen min_length ctx.cands ex).1.map
        (mkTightString fva pointer_size ctx)).map (fun t => t.string) =
        (tightGo maxLen min_length ctx.cands ex).1.map (fun s => s.string) := by
      rw [List.map_map]
      rfl
    refine ⟨?_, ?_, h3, ?_⟩
    · intro t ht
      obtain ⟨u, hu, hut⟩ := List.mem_map.mp ht
      have : t.string = u.string := by rw [← hut]; rfl
      rw [this]
      exact h1 u hu
    · rw [hmapstr]
      exact h2
    · intro t ht
      obtain ⟨u, hu, hut⟩ := List.mem_map.mp ht
      have : t.string = u.string := by rw [← hut]; rfl
      rw [this]
      exact h4 u hu

/-- The invariant threaded over all call contexts of one function. -/
theorem tightCtxs_inv (maxLen min_length : Nat) (fva pointer_size : Int) :
    ∀ (ctxs : List CallCtx) (ex : List (List Char)),
      (∀ t ∈ (tightCtxs maxLen min_length fva pointer_size ctxs ex).1,
        t.string ∉ ex) ∧
      ((tightCtxs maxLen min_length fva pointer_size ctxs ex).1.map
        (fun t => t.string)).Nodup ∧
      (∀ x ∈ ex, x ∈ (tightCtxs maxLen min_length fva pointer_size ctxs ex).2) ∧
      (∀ t ∈ (tightCtxs maxLen min_length fva pointer_size ctxs ex).1,
        t.string ∈ (tightCtxs maxLen min_length fva pointer_size ctxs ex).2) := by
  intro ctxs
  induction ctxs with
  | nil =>
    intro ex
    refine ⟨?_, ?_, ?_, ?_⟩ <;> simp [tightCtxs]
  | cons ctx rest ih =>
    intro ex
    obtain ⟨c1, c2, c3, c4⟩ := tightCtx_inv maxLen min_length fva pointer_size ctx ex
    obtain ⟨r1, r2, r3, r4⟩ :=
      ih (tightCtx maxLen min_length fva pointer_size ctx ex).2
    have hgo : tightCtxs maxLen min_length fva pointer_size (ctx :: rest) ex =
        ((tightCtx maxLen min_length fva pointer_size ctx ex).1 ++
          (tightCtxs maxLen min_length fva pointer_size rest
            (tightCtx maxLen min_length fva pointer_size ctx ex).2).1,
          (tightCtxs maxLen min_length fva pointer_size rest
            (tightCtx maxLen min_length fva pointer_size ctx ex).2).2) := by
      simp only [tightCtxs]
    rw [hgo]
    refine ⟨?_, ?_, ?_, ?_⟩
    · intro t ht
      rcases List.mem_append.mp ht with ht | ht
      · exact c1 t ht
      · exact fun hmem => r1 t ht (c3 t.string hmem)
    · rw [List.map_append]
      refine List.Nodup.append c2 r2 ?_
      intro a ha hb
      obtain ⟨t, ht, hts⟩ := List.mem_map.mp ha
      obtain ⟨u, hu, hus⟩ := List.mem_map.mp hb
      refine r1 u hu ?_
      rw [hus, ← hts]
      exact c4 t ht
    · intro x hx
      exact r3 x (c3 x hx)
    · intro t ht
      rcases List.mem_append.mp ht with ht | ht
      · exact r3 t.string (c4 t ht)
      · exact r4 t ht

/-- C3: every `TightString` yielded for a function carries a string that
is not in the pre-loop snapshot set `pre_ctx_strings`, and no two
`TightString`s yielded for the same function carry the same string (each
yielded text joins the exclusion set, so it cannot re-appear from a later
candidate or context). -/
theorem tightstrings_fresh_and_distinct (maxLen min_length : Nat)
    (fva pointer_size : Int) (ctxs : List CallCtx) (pre : List (List Char)) :
    (∀ t ∈ extract_tightstrings maxLen min_length fva pointer_size ctxs pre,
      t.string ∉ pre) ∧
    ((extract_tightstrings maxLen min_length fva pointer_size ctxs pre).map
      (fun t => t.string)).Nodup := by
  obtain ⟨h1, h2, _, _⟩ := tightCtxs_inv maxLen min_length fva pointer_size ctxs pre
  exact ⟨h1, h2⟩

/-- Witness for C3: the spec's scenario 6, where the pre-loop stack holds
`"SECRET"` and the post-loop stack yields `"PASS"`. -/
theorem tightstrings_fresh_and_distinct_witness :
    ("PASS".toList : List Char) ∉ [("SECRET".toList : List Char)] :=
  (tightstrings_fresh_and_distinct 2048 4 0 8
      [⟨0, 0, 100, 50, [⟨"PASS".toList, 4, .ASCII⟩]⟩] ["SECRET".toList]).1
    ⟨0, "PASS".toList, .ASCII, 0, 0, 100, 4, 88⟩ (by decide)

/-- The repair loop never raises when every wide scanner result has
nonempty text (the `sd[0]` access is the only failure point). -/
theorem fixGo_total (min_length : Nat) (rescan : Int → RawRes) :
    ∀ (l : List RawRes) (lf : Option RawRes) (acc : List RawRes),
      (∀ r ∈ l, r.kind = .WIDE_STRING → r.text ≠ []) →
      ∃ out, fixGo min_length rescan l lf acc = some out := by
  intro l
  induction l with
  | nil => intro lf acc _; exact ⟨acc.reverse, rfl⟩
  | cons x rest ih =>
    intro lf acc hl
    have hrest : ∀ r ∈ rest, r.kind = .WIDE_STRING → r.text ≠ [] :=
      fun r hr => hl r (List.mem_cons_of_mem _ hr)
    simp only [fixGo]
    split
    · next hk =>
      cases hx : x.text with
      | nil => exact absurd hx (hl x (List.mem_cons_self _ _) hk)
      | cons c t =>
        simp only
        split
        · exact ih _ _ hrest
        · exact ih _ _ hrest
    · cases lf with
      | some fx =>
        simp only
        split
        · exact ih _ _ hrest
        · exact ih _ _ hrest
      | none =>
        simp only
        exact ih _ _ hrest

/-- C8: the blob string engine returns an empty list, raising nothing,
whenever the read-only data section cannot be resolved, and likewise when
the PE machine type is neither 32- nor 64-bit x86 (given scanner results
whose wide entries are nonempty, as `b2s` produces); both conditions are
swallowed locally. -/
theorem blob_engine_swallows (pe : BlobPE) (ext : BlobExt) (min_length : Nat)
    (h : pe.rdata = none ∨
      (pe.machine = .other ∧
        ∀ r ∈ ext.scan, r.kind = .WIDE_STRING → r.text ≠ [])) :
    get_string_blob_strings pe ext min_length = some [] := by
  rcases h with h | ⟨hm, hscan⟩
  · unfold get_string_blob_strings
    rw [h]
  · unfold get_string_blob_strings
    cases hrd : pe.rdata with
    | none => rfl
    | some sec =>
      obtain ⟨out, hout⟩ := fixGo_total min_length ext.rescan ext.scan none [] hscan
      have hfix : fix_b2s_wide_strings ext.scan min_length ext.rescan = some out :=
        hout
      rw [hfix]
      simp only [machineXrefs, hm]

/-- Witness for C8: an unsupported-machine PE with a resolvable rdata
section yields the empty list. -/
theorem blob_engine_swallows_witness :
    get_string_blob_strings ⟨0x400000, .other, some ⟨0x1000, 0x400, 0x200⟩⟩
      ⟨[], fun _ => ⟨[], .UTF8, 0, 0, true⟩, [], [], [], []⟩ 4 = some [] :=
  blob_engine_swallows _ _ 4 (Or.inr ⟨rfl, by intro r hr; cases hr⟩)

end Floss
